import Mathlib

/-!
A shallow embedding of the stroke-editing engine of the NovaSketch whiteboard
(`src/frontend/src/components/Whiteboard/Whiteboard.tsx`).

Coordinates are modelled as real numbers; the flat `number[]` coordinate
arrays of the source (stride 2) are modelled as lists of points; `Math.sqrt`
is `Real.sqrt`.  Each definition mirrors the source function of the same
name.  The engine-level handlers (`handlePointerDown` / `handlePointerMove`)
are embedded as pure collection transformers.
-/

namespace NovaSketch

open Classical

noncomputable section

/-- A 2D point: one (x, y) coordinate pair of the source's flat arrays. -/
structure Pt where
  x : ℝ
  y : ℝ

/-- `interface StrokeLine` from the source. -/
structure StrokeLine where
  id : String
  points : List Pt
  color : String
  strokeWidth : ℝ

/-- `distSq` from the source: squared Euclidean distance. -/
def distSq (p1 p2 : Pt) : ℝ :=
  (p1.x - p2.x) ^ 2 + (p1.y - p2.y) ^ 2

/-- `isPointInCircle` from the source: strict inequality against `r ** 2`. -/
def isPointInCircle (px py cx cy r : ℝ) : Prop :=
  (px - cx) ^ 2 + (py - cy) ^ 2 < r ^ 2

/-- The point of the segment `p1`–`p2` at parameter `t` (the source's
`p1.x + t * dx, p1.y + t * dy`). -/
def segPoint (p1 p2 : Pt) (t : ℝ) : Pt :=
  ⟨p1.x + t * (p2.x - p1.x), p1.y + t * (p2.y - p1.y)⟩

/-- `getSegmentCircleIntersections` from the source: roots of the quadratic
`a t^2 + b t + C = 0` kept when `t ∈ [0, 1]`, in the push order `t1` then
`t2`. -/
def getSegmentCircleIntersections (p1 p2 c : Pt) (r : ℝ) : List Pt :=
  let dx := p2.x - p1.x
  let dy := p2.y - p1.y
  let fx := p1.x - c.x
  let fy := p1.y - c.y
  let a := dx * dx + dy * dy
  let b := 2 * (fx * dx + fy * dy)
  let C := (fx * fx + fy * fy) - r * r
  let disc := b * b - 4 * a * C
  if 0 ≤ disc then
    if a = 0 then []
    else
      (if 0 ≤ (-b - Real.sqrt disc) / (2 * a) ∧ (-b - Real.sqrt disc) / (2 * a) ≤ 1
        then [segPoint p1 p2 ((-b - Real.sqrt disc) / (2 * a))] else []) ++
      (if 0 ≤ (-b + Real.sqrt disc) / (2 * a) ∧ (-b + Real.sqrt disc) / (2 * a) ≤ 1
        then [segPoint p1 p2 ((-b + Real.sqrt disc) / (2 * a))] else [])
  else []

/-- The source's `intersections.sort((a, b) => distSq(p1, a) - distSq(p1, b))`:
on the at-most-two-element lists produced above, the JS sort swaps a pair
exactly when the comparator is positive. -/
def sortByDistFrom (p1 : Pt) (l : List Pt) : List Pt :=
  match l with
  | [u, v] => if distSq p1 v < distSq p1 u then [v, u] else [u, v]
  | _ => l

/-- The mutable per-stroke state of `eraseAtPosition`'s loop body:
`currentLinePoints`, `segmentCount`, and the fragments pushed to `result`
for the current stroke. -/
structure EraseSt where
  run : List Pt
  segCount : ℕ
  out : List StrokeLine

/-- `finishLine` from the source: emit the current run as a fragment when it
has at least 2 points (`currentLinePoints.length >= 4` coordinates), with id
`` `${stroke.id}-${segmentCount++}` `` and the original's color and width. -/
def finishLine (stroke : StrokeLine) (st : EraseSt) : EraseSt :=
  if 2 ≤ st.run.length then
    { run := [],
      segCount := st.segCount + 1,
      out := st.out ++ [{ stroke with
        id := stroke.id ++ "-" ++ toString st.segCount,
        points := st.run }] }
  else { st with run := [] }

/-- One iteration of the segment loop of `eraseAtPosition`, for the segment
from `pprev` to `pcur` (the source's loop body over `i = 2, 4, …`). -/
def eraseStep (x y eraserRadius : ℝ) (stroke : StrokeLine) (st : EraseSt)
    (pprev pcur : Pt) : EraseSt :=
  if getSegmentCircleIntersections pprev pcur ⟨x, y⟩ eraserRadius = [] then
    if ¬ isPointInCircle pcur.x pcur.y x y eraserRadius then
      { st with run := st.run ++ [pcur] }
    else
      finishLine stroke st
  else
    let st1 :=
      (sortByDistFrom pprev
        (getSegmentCircleIntersections pprev pcur ⟨x, y⟩ eraserRadius)).foldl
        (fun s q =>
          if s.run ≠ [] then finishLine stroke { s with run := s.run ++ [q] }
          else { s with run := [q] })
        st
    if ¬ isPointInCircle pcur.x pcur.y x y eraserRadius then
      { st1 with run := st1.run ++ [pcur] }
    else st1

/-- The segment loop of `eraseAtPosition`: walk the remaining points,
threading the state. -/
def runSegments (x y eraserRadius : ℝ) (stroke : StrokeLine) :
    Pt → List Pt → EraseSt → EraseSt
  | _, [], st => st
  | pprev, pcur :: rest, st =>
      runSegments x y eraserRadius stroke pcur rest
        (eraseStep x y eraserRadius stroke st pprev pcur)

/-- The run seeded from the stroke's first point: the source pushes
`points[0], points[1]` exactly when `!isPointInCircle(px, py, x, y, r)`. -/
def initialRun (p0 : Pt) (x y eraserRadius : ℝ) : List Pt :=
  if ¬ isPointInCircle p0.x p0.y x y eraserRadius then [p0] else []

/-- The per-stroke body of `eraseAtPosition`: pass through strokes with fewer
than 2 points (`points.length < 4` coordinates), otherwise seed from the
first point, run the segment loop, and close the final run. -/
def splitStroke (x y eraserRadius : ℝ) (stroke : StrokeLine) : List StrokeLine :=
  match stroke.points with
  | [] => [stroke]
  | [_] => [stroke]
  | p0 :: rest =>
      (finishLine stroke
        (runSegments x y eraserRadius stroke p0 rest
          { run := initialRun p0 x y eraserRadius, segCount := 0, out := [] })).out

/-- `eraseAtPosition` from the source: the loop over `strokes` pushes each
stroke's fragments into one shared `result` array, i.e. the concatenation of
the per-stroke outputs. -/
def eraseAtPosition (x y : ℝ) (strokes : List StrokeLine) (eraserRadius : ℝ) :
    List StrokeLine :=
  strokes.flatMap (splitStroke x y eraserRadius)

/-- `pointToSegmentDistance` from the source: distance from `(px, py)` to the
segment `(x1, y1)`–`(x2, y2)`, clamping the projection parameter to `[0, 1]`. -/
def pointToSegmentDistance (px py x1 y1 x2 y2 : ℝ) : ℝ :=
  let dx := x2 - x1
  let dy := y2 - y1
  let lengthSq := dx * dx + dy * dy
  if lengthSq = 0 then
    Real.sqrt ((px - x1) ^ 2 + (py - y1) ^ 2)
  else
    let t := max 0 (min 1 (((px - x1) * dx + (py - y1) * dy) / lengthSq))
    Real.sqrt ((px - (x1 + t * dx)) ^ 2 + (py - (y1 + t * dy)) ^ 2)

/-- The consecutive point pairs of a polyline: the segments scanned by the
source's `for (let j = 0; j < points.length - 2; j += 2)` loop. -/
def strokeSegments (ps : List Pt) : List (Pt × Pt) :=
  ps.zip ps.tail

/-- The inner loop of `findStrokeAtPosition`: some segment of the stroke is
within `hitRadius + strokeWidth / 2` of the query point. -/
def strokeHit (x y : ℝ) (stroke : StrokeLine) (hitRadius : ℝ) : Prop :=
  ∃ seg ∈ strokeSegments stroke.points,
    pointToSegmentDistance x y seg.1.x seg.1.y seg.2.x seg.2.y ≤
      hitRadius + stroke.strokeWidth / 2

/-- The outer loop of `findStrokeAtPosition` on an already-reversed list:
return the first stroke with a segment within the threshold. -/
def findFirstHit (x y hitRadius : ℝ) : List StrokeLine → Option String
  | [] => none
  | s :: rest =>
      if strokeHit x y s hitRadius then some s.id
      else findFirstHit x y hitRadius rest

/-- `findStrokeAtPosition` from the source: scan `strokes` from the last
index down to 0. -/
def findStrokeAtPosition (x y : ℝ) (strokes : List StrokeLine) (hitRadius : ℝ) :
    Option String :=
  findFirstHit x y hitRadius strokes.reverse

/-- The stroke-eraser branch of `handlePointerDown` / `handlePointerMove`:
`if (hitId) setLines(lines.filter((line) => line.id !== hitId))`.  The JS
truthiness test on the id string also rejects an empty id. -/
def eraseWholeStroke (x y : ℝ) (lines : List StrokeLine) (eraserSize : ℝ) :
    List StrokeLine :=
  match findStrokeAtPosition x y lines (eraserSize / 2) with
  | none => lines
  | some hitId =>
      if hitId = "" then lines
      else lines.filter (fun line => line.id ≠ hitId)

/-- `MIN_POINT_DISTANCE` from the source. -/
def MIN_POINT_DISTANCE : ℝ := 3

/-- The drawing branch of `handlePointerMove`: read the last point of the
last line, reject the sample when its distance to it is `< MIN_POINT_DISTANCE`,
otherwise replace the last line by one with the sample appended.  (With an
empty `points` array the source compares against `NaN`, which is falsy, so
the sample is appended.) -/
def continueDrawing (posx posy : ℝ) (prevLines : List StrokeLine) :
    List StrokeLine :=
  match prevLines.getLast? with
  | none => prevLines
  | some lastLine =>
      match lastLine.points.getLast? with
      | none =>
          prevLines.dropLast ++
            [{ lastLine with points := lastLine.points ++ [⟨posx, posy⟩] }]
      | some lp =>
          if Real.sqrt ((posx - lp.x) * (posx - lp.x) +
              (posy - lp.y) * (posy - lp.y)) < MIN_POINT_DISTANCE then
            prevLines
          else
            prevLines.dropLast ++
              [{ lastLine with points := lastLine.points ++ [⟨posx, posy⟩] }]

/-- `q` lies on the polyline `P`, on the segment starting at index
`pre.length`, at overall path parameter `u = pre.length + t` with
`t ∈ [0, 1]`. -/
def OnPath (P : List Pt) (u : ℝ) (q : Pt) : Prop :=
  ∃ pre : List Pt, ∃ a b : Pt, ∃ suf : List Pt, ∃ t : ℝ,
    P = pre ++ a :: b :: suf ∧ 0 ≤ t ∧ t ≤ 1 ∧ u = pre.length + t ∧
    q = segPoint a b t

/-- `frag` traverses the polyline `P` in order: its points lie on `P` at
nondecreasing path parameters. -/
def IsPathSeq (P : List Pt) (frag : List Pt) : Prop :=
  ∃ us : List ℝ, us.Pairwise (· ≤ ·) ∧
    List.Forall₂ (fun u q => OnPath P u q) us frag

/-- `IsPathSeq` with all path parameters bounded by `bound`: the invariant
of the splitter's current run while the scan sits at path position `bound`. -/
def IsPathSeqLe (P : List Pt) (frag : List Pt) (bound : ℝ) : Prop :=
  ∃ us : List ℝ, us.Pairwise (· ≤ ·) ∧ (∀ u ∈ us, u ≤ bound) ∧
    List.Forall₂ (fun u q => OnPath P u q) us frag

/-- The splitter-state invariant for a stroke `s` being split along the
polyline `P`: the fragment counter matches the number of emitted fragments,
emitted ids are `s.id ++ "-" ++ k` for `k = 0, 1, …`, and every emitted
fragment has ≥ 2 points, the original color and width, and points in path
order. -/
def SplitInv (s : StrokeLine) (P : List Pt) (st : EraseSt) : Prop :=
  st.segCount = st.out.length ∧
  st.out.map StrokeLine.id =
    (List.range st.out.length).map (fun k => s.id ++ "-" ++ toString k) ∧
  ∀ f ∈ st.out, 2 ≤ f.points.length ∧ f.color = s.color ∧
    f.strokeWidth = s.strokeWidth ∧ IsPathSeq P f.points

end

/-! ## Theorems -/

/-- **C6**: a stroke with fewer than 2 points is returned unchanged (same
identifier, same points) by the circle splitter, regardless of the eraser
circle's position and radius. -/
theorem c6_short_stroke_passthrough (x y r : ℝ) (s : StrokeLine)
    (h : s.points.length < 2) : splitStroke x y r s = [s] := by
  obtain ⟨i, ps, col, w⟩ := s
  match ps, h with
  | [], _ => rfl
  | [p], _ => rfl
  | p :: q :: rest, h => exact absurd h (by simp)

/-- Witness for C6 at a concrete input: a one-point stroke whose point lies
strictly inside the eraser circle still passes through unchanged. -/
theorem c6_short_stroke_passthrough_witness :
    ((0 : ℝ) - 0) ^ 2 + ((0 : ℝ) - 0) ^ 2 < 10 ^ 2 ∧
    splitStroke 0 0 10 ⟨"s", [⟨0, 0⟩], "c", 1⟩ = [⟨"s", [⟨0, 0⟩], "c", 1⟩] :=
  ⟨by norm_num,
   c6_short_stroke_passthrough 0 0 10 ⟨"s", [⟨0, 0⟩], "c", 1⟩ (by simp)⟩

/-- **C3 (counterexample to the claim as stated)**: a first point on the
circle's boundary (squared distance exactly radius²) *is* used to seed the
current run, although the claim says boundary points count as inside and are
not seeded. -/
theorem c3_boundary_seeded_counterexample :
    ((10 : ℝ) - 0) ^ 2 + ((0 : ℝ) - 0) ^ 2 = 10 ^ 2 ∧
    initialRun ⟨10, 0⟩ 0 0 10 = [⟨10, 0⟩] := by
  constructor
  · norm_num
  · unfold initialRun
    rw [if_pos]
    simp only [isPointInCircle, not_lt]
    norm_num

/-- **C3 (amended)**: during circle splitting, the first point seeds the
current run if and only if its squared distance from the eraser center is
`≥ radius²`; a point on the boundary counts as outside and is seeded. -/
theorem c3_seed_iff_sq_ge (p0 : Pt) (x y r : ℝ) :
    initialRun p0 x y r = [p0] ↔
      r ^ 2 ≤ (p0.x - x) ^ 2 + (p0.y - y) ^ 2 := by
  constructor
  · intro hrun
    by_contra hlt
    push_neg at hlt
    unfold initialRun at hrun
    rw [if_neg (not_not_intro (by simpa [isPointInCircle] using hlt))] at hrun
    exact List.noConfusion hrun
  · intro hle
    unfold initialRun
    rw [if_pos (by simpa [isPointInCircle, not_lt] using hle)]

/-- **C9**: during drawing, a continue-event sample is appended to the
in-progress (last) stroke iff its Euclidean distance from the stroke's last
point is `≥ MIN_POINT_DISTANCE = 3`; a rejected sample leaves the collection
unchanged. -/
theorem c9_min_distance (posx posy : ℝ) (init : List StrokeLine)
    (s : StrokeLine) (lp : Pt) (hlp : s.points.getLast? = some lp) :
    (Real.sqrt ((posx - lp.x) * (posx - lp.x) + (posy - lp.y) * (posy - lp.y)) <
        MIN_POINT_DISTANCE →
      continueDrawing posx posy (init ++ [s]) = init ++ [s]) ∧
    (MIN_POINT_DISTANCE ≤
        Real.sqrt ((posx - lp.x) * (posx - lp.x) + (posy - lp.y) * (posy - lp.y)) →
      continueDrawing posx posy (init ++ [s]) =
        init ++ [{ s with points := s.points ++ [⟨posx, posy⟩] }]) := by
  unfold continueDrawing
  rw [List.getLast?_concat]
  dsimp only
  rw [hlp]
  dsimp only
  rw [List.dropLast_concat]
  constructor
  · intro h
    rw [if_pos h]
  · intro h
    rw [if_neg (not_lt.mpr h)]

/-- Witness for C9 at concrete inputs: with the last point at the origin, a
sample at distance 2.9 is rejected (collection unchanged) and a sample at
distance 3.0 is appended. -/
theorem c9_min_distance_witness :
    continueDrawing 2.9 0 [⟨"s", [⟨0, 0⟩], "c", 1⟩] = [⟨"s", [⟨0, 0⟩], "c", 1⟩] ∧
    continueDrawing 3 0 [⟨"s", [⟨0, 0⟩], "c", 1⟩] =
      [⟨"s", [⟨0, 0⟩, ⟨3, 0⟩], "c", 1⟩] := by
  constructor
  · have h := (c9_min_distance 2.9 0 [] ⟨"s", [⟨0, 0⟩], "c", 1⟩ ⟨0, 0⟩ rfl).1
    simpa using h (by
      rw [show ((2.9 : ℝ) - (0 : ℝ)) * ((2.9 : ℝ) - 0) +
          ((0 : ℝ) - 0) * ((0 : ℝ) - 0) = 2.9 ^ 2 by norm_num,
        Real.sqrt_sq (by norm_num : (0 : ℝ) ≤ 2.9)]
      norm_num [MIN_POINT_DISTANCE])
  · have h := (c9_min_distance 3 0 [] ⟨"s", [⟨0, 0⟩], "c", 1⟩ ⟨0, 0⟩ rfl).2
    simpa using h (by
      rw [show ((3 : ℝ) - (0 : ℝ)) * ((3 : ℝ) - 0) +
          ((0 : ℝ) - 0) * ((0 : ℝ) - 0) = 3 ^ 2 by norm_num,
        Real.sqrt_sq (by norm_num : (0 : ℝ) ≤ 3)]
      norm_num [MIN_POINT_DISTANCE])

/-- `findFirstHit` returns `some i` exactly when the list splits as
`pre ++ s :: post` with `s` the first hit: every stroke before `s` misses. -/
theorem findFirstHit_eq_some_iff (x y r : ℝ) (i : String) (l : List StrokeLine) :
    findFirstHit x y r l = some i ↔
      ∃ pre s post, l = pre ++ s :: post ∧ s.id = i ∧ strokeHit x y s r ∧
        ∀ t ∈ pre, ¬ strokeHit x y t r := by
  induction l with
  | nil =>
      constructor
      · intro h; exact Option.noConfusion h
      · rintro ⟨pre, s, post, habs, -, -, -⟩
        exact absurd habs.symm (by simp)
  | cons a rest ih =>
      unfold findFirstHit
      by_cases ha : strokeHit x y a r
      · rw [if_pos ha]
        constructor
        · intro h
          exact ⟨[], a, rest, rfl, Option.some.inj h, ha, by simp⟩
        · rintro ⟨pre, s, post, hdecomp, hid, hhit, hpre⟩
          cases pre with
          | nil =>
              obtain ⟨rfl, rfl⟩ : a = s ∧ rest = post := by
                simpa using hdecomp
              rw [hid]
          | cons b pre2 =>
              obtain ⟨rfl, -⟩ : a = b ∧ rest = pre2 ++ s :: post := by
                simpa using hdecomp
              exact absurd ha (hpre a (by simp))
      · rw [if_neg ha, ih]
        constructor
        · rintro ⟨pre, s, post, rfl, hid, hhit, hpre⟩
          refine ⟨a :: pre, s, post, rfl, hid, hhit, ?_⟩
          intro t ht
          rcases List.mem_cons.mp ht with rfl | ht2
          · exact ha
          · exact hpre t ht2
        · rintro ⟨pre, s, post, hdecomp, hid, hhit, hpre⟩
          cases pre with
          | nil =>
              obtain ⟨rfl, -⟩ : a = s ∧ rest = post := by
                simpa using hdecomp
              exact absurd hhit ha
          | cons b pre2 =>
              obtain ⟨rfl, rfl⟩ : a = b ∧ rest = pre2 ++ s :: post := by
                simpa using hdecomp
              refine ⟨pre2, s, post, rfl, hid, hhit, ?_⟩
              intro t ht
              exact hpre t (by simp [ht])

/-- `findFirstHit` returns `none` exactly when every stroke misses. -/
theorem findFirstHit_eq_none_iff (x y r : ℝ) (l : List StrokeLine) :
    findFirstHit x y r l = none ↔ ∀ s ∈ l, ¬ strokeHit x y s r := by
  induction l with
  | nil => simp [findFirstHit]
  | cons a rest ih =>
      unfold findFirstHit
      by_cases ha : strokeHit x y a r
      · rw [if_pos ha]
        simp [ha]
      · rw [if_neg ha, ih]
        simp [ha]

/-- A stroke is hit only through one of its segments, so it has ≥ 2 points. -/
theorem strokeHit_two_le_length (x y r : ℝ) (s : StrokeLine)
    (h : strokeHit x y s r) : 2 ≤ s.points.length := by
  obtain ⟨seg, hmem, -⟩ := h
  unfold strokeSegments at hmem
  match hp : s.points, hmem with
  | [], hmem => simp at hmem
  | [p], hmem => simp at hmem
  | p :: q :: rest, _ => simp

/-- `findStrokeAtPosition` returns `some i` exactly when the collection
splits as `pre ++ s :: post` with `s.id = i`, `s` hit, and every
later-inserted stroke (in `post`) missed. -/
theorem findStrokeAtPosition_eq_some_iff (x y hitRadius : ℝ)
    (L : List StrokeLine) (i : String) :
    findStrokeAtPosition x y L hitRadius = some i ↔
      ∃ pre s post, L = pre ++ s :: post ∧ s.id = i ∧
        strokeHit x y s hitRadius ∧ ∀ t ∈ post, ¬ strokeHit x y t hitRadius := by
  unfold findStrokeAtPosition
  rw [findFirstHit_eq_some_iff]
  constructor
  · rintro ⟨pre, s, post, hdecomp, hid, hhit, hpre⟩
    refine ⟨post.reverse, s, pre.reverse, ?_, hid, hhit, ?_⟩
    · have := congrArg List.reverse hdecomp
      simpa using this
    · intro t ht
      exact hpre t (by simpa using ht)
  · rintro ⟨pre, s, post, rfl, hid, hhit, hpost⟩
    refine ⟨post.reverse, s, pre.reverse, by simp, hid, hhit, ?_⟩
    intro t ht
    exact hpost t (by simpa using ht)

/-- **C7**: `findStrokeAtPosition` scans strokes from last-inserted to
first-inserted and returns the identifier of the first stroke having a
segment whose clamped point-to-segment distance from the query point is
`≤ hitRadius + strokeWidth / 2` (the `strokeHit` predicate); it returns
`none` when no stroke qualifies; and when two strokes both pass within the
threshold, the later-inserted stroke's id is returned. -/
theorem c7_hit_test_characterization (x y hitRadius : ℝ) (L : List StrokeLine) :
    (∀ i : String, findStrokeAtPosition x y L hitRadius = some i ↔
      ∃ pre s post, L = pre ++ s :: post ∧ s.id = i ∧
        strokeHit x y s hitRadius ∧ ∀ t ∈ post, ¬ strokeHit x y t hitRadius) ∧
    (findStrokeAtPosition x y L hitRadius = none ↔
      ∀ s ∈ L, ¬ strokeHit x y s hitRadius) ∧
    (∀ a b : StrokeLine, strokeHit x y a hitRadius → strokeHit x y b hitRadius →
      findStrokeAtPosition x y [a, b] hitRadius = some b.id) := by
  refine ⟨fun i => findStrokeAtPosition_eq_some_iff x y hitRadius L i, ?_, ?_⟩
  · unfold findStrokeAtPosition
    rw [findFirstHit_eq_none_iff]
    simp
  · intro a b ha hb
    unfold findStrokeAtPosition
    have h2 : ([a, b] : List StrokeLine).reverse = [b, a] := by simp
    rw [h2]
    unfold findFirstHit
    rw [if_pos hb]

/-- **C10**: `findStrokeAtPosition` never returns the identifier of a stroke
with fewer than 2 points: whenever it returns `some i`, some stroke of the
collection bears the id `i` and has at least 2 points (a single-point stroke
contributes no segments and can never be hit-tested). -/
theorem c10_returned_stroke_has_two_points (x y r : ℝ) (L : List StrokeLine)
    (i : String) (h : findStrokeAtPosition x y L r = some i) :
    ∃ s ∈ L, s.id = i ∧ 2 ≤ s.points.length := by
  obtain ⟨pre, s, post, rfl, hid, hhit, -⟩ :=
    (findStrokeAtPosition_eq_some_iff x y r L i).mp h
  exact ⟨s, by simp, hid, strokeHit_two_le_length x y r s hhit⟩

/-- **C8**: when whole-stroke erase finds a stroke under the cursor (and the
collection's identifiers are pairwise distinct and the found id is not the
empty string, per the data model), the resulting collection is one shorter,
the removed identifier is absent, every remaining stroke is one of the
original strokes in the original relative order, and every stroke with a
different id survives untouched. -/
theorem c8_whole_stroke_erase (x y eraserSize : ℝ) (L : List StrokeLine)
    (i : String) (hnodup : (L.map StrokeLine.id).Nodup) (hne : i ≠ "")
    (hfind : findStrokeAtPosition x y L (eraserSize / 2) = some i) :
    (eraseWholeStroke x y L eraserSize).length + 1 = L.length ∧
    (∀ s ∈ eraseWholeStroke x y L eraserSize, s.id ≠ i) ∧
    (eraseWholeStroke x y L eraserSize).Sublist L ∧
    (∀ s ∈ L, s.id ≠ i → s ∈ eraseWholeStroke x y L eraserSize) := by
  have herase : eraseWholeStroke x y L eraserSize =
      L.filter (fun line => line.id ≠ i) := by
    unfold eraseWholeStroke
    rw [hfind]
    dsimp only
    rw [if_neg hne]
  obtain ⟨pre, s, post, hdecomp, hid, -, -⟩ :=
    (findStrokeAtPosition_eq_some_iff x y (eraserSize / 2) L i).mp hfind
  subst hid
  rw [herase]
  refine ⟨?_, ?_, List.filter_sublist L, ?_⟩
  · subst hdecomp
    have hmid : (s.id :: (pre.map StrokeLine.id ++ post.map StrokeLine.id)).Nodup := by
      apply List.nodup_middle.mp
      simpa using hnodup
    have hnotmem : s.id ∉ pre.map StrokeLine.id ++ post.map StrokeLine.id :=
      (List.nodup_cons.mp hmid).1
    have hfpre : pre.filter (fun line => line.id ≠ s.id) = pre := by
      apply List.filter_eq_self.mpr
      intro a ha
      simp only [ne_eq, decide_not, Bool.not_eq_true', decide_eq_false_iff_not]
      intro heq
      exact hnotmem (List.mem_append.mpr
        (Or.inl (heq ▸ List.mem_map_of_mem StrokeLine.id ha)))
    have hfpost : post.filter (fun line => line.id ≠ s.id) = post := by
      apply List.filter_eq_self.mpr
      intro a ha
      simp only [ne_eq, decide_not, Bool.not_eq_true', decide_eq_false_iff_not]
      intro heq
      exact hnotmem (List.mem_append.mpr
        (Or.inr (heq ▸ List.mem_map_of_mem StrokeLine.id ha)))
    rw [List.filter_append, hfpre,
      List.filter_cons_of_neg (by simp), hfpost]
    simp [List.length_append]
    omega
  · intro t ht
    have := (List.mem_filter.mp ht).2
    simpa using this
  · intro t ht hne2
    exact List.mem_filter.mpr ⟨ht, by simpa using hne2⟩

/-- Concrete evaluation: the query (5,0) projects onto the midpoint of the
segment (0,0)–(10,0), at distance 0. -/
theorem pointToSegmentDistance_ex0 : pointToSegmentDistance 5 0 0 0 10 0 = 0 := by
  unfold pointToSegmentDistance
  rw [if_neg (by norm_num)]
  norm_num [min_def, max_def]

/-- Concrete evaluation: the query (5,0) projects onto the midpoint of the
segment (0,1)–(10,1), at distance 1. -/
theorem pointToSegmentDistance_ex1 : pointToSegmentDistance 5 0 0 1 10 1 = 1 := by
  unfold pointToSegmentDistance
  rw [if_neg (by norm_num)]
  norm_num [min_def, max_def]

/-- The concrete stroke `a` (along y = 0, width 2) is hit from (5,0) at any
nonnegative hit radius. -/
theorem strokeHit_concrete_a (r : ℝ) (hr : 0 ≤ r) :
    strokeHit 5 0 ⟨"a", [⟨0, 0⟩, ⟨10, 0⟩], "c", 2⟩ r := by
  refine ⟨(⟨0, 0⟩, ⟨10, 0⟩), by simp [strokeSegments], ?_⟩
  show pointToSegmentDistance 5 0 0 0 10 0 ≤ r + 2 / 2
  rw [pointToSegmentDistance_ex0]
  linarith

/-- The concrete stroke `b` (along y = 1, width 2) is hit from (5,0) at any
nonnegative hit radius. -/
theorem strokeHit_concrete_b (r : ℝ) (hr : 0 ≤ r) :
    strokeHit 5 0 ⟨"b", [⟨0, 1⟩, ⟨10, 1⟩], "c", 2⟩ r := by
  refine ⟨(⟨0, 1⟩, ⟨10, 1⟩), by simp [strokeSegments], ?_⟩
  show pointToSegmentDistance 5 0 0 1 10 1 ≤ r + 2 / 2
  rw [pointToSegmentDistance_ex1]
  linarith

/-- Witness for C7: two overlapping strokes under the query point — the
later-inserted stroke `b` is reported. -/
theorem c7_hit_test_characterization_witness :
    findStrokeAtPosition 5 0
      [⟨"a", [⟨0, 0⟩, ⟨10, 0⟩], "c", 2⟩, ⟨"b", [⟨0, 1⟩, ⟨10, 1⟩], "c", 2⟩] 1 =
      some "b" :=
  (c7_hit_test_characterization 5 0 1
      [⟨"a", [⟨0, 0⟩, ⟨10, 0⟩], "c", 2⟩, ⟨"b", [⟨0, 1⟩, ⟨10, 1⟩], "c", 2⟩]).2.2
    ⟨"a", [⟨0, 0⟩, ⟨10, 0⟩], "c", 2⟩ ⟨"b", [⟨0, 1⟩, ⟨10, 1⟩], "c", 2⟩
    (strokeHit_concrete_a 1 (by norm_num)) (strokeHit_concrete_b 1 (by norm_num))

/-- Witness for C10 at a concrete input where the hit test succeeds. -/
theorem c10_returned_stroke_has_two_points_witness :
    ∃ s ∈ [(⟨"a", [⟨0, 0⟩, ⟨10, 0⟩], "c", 2⟩ : StrokeLine)],
      s.id = "a" ∧ 2 ≤ s.points.length := by
  apply c10_returned_stroke_has_two_points 5 0 1
    [⟨"a", [⟨0, 0⟩, ⟨10, 0⟩], "c", 2⟩] "a"
  show findFirstHit 5 0 1
    ([(⟨"a", [⟨0, 0⟩, ⟨10, 0⟩], "c", 2⟩ : StrokeLine)]).reverse = some "a"
  rw [show ([(⟨"a", [⟨0, 0⟩, ⟨10, 0⟩], "c", 2⟩ : StrokeLine)]).reverse =
    [(⟨"a", [⟨0, 0⟩, ⟨10, 0⟩], "c", 2⟩ : StrokeLine)] by simp]
  unfold findFirstHit
  rw [if_pos (strokeHit_concrete_a 1 (by norm_num))]

/-- Witness for C8: erasing with the stroke eraser at (5,0) on the two-stroke
collection removes exactly the topmost stroke `b`. -/
theorem c8_whole_stroke_erase_witness :
    (eraseWholeStroke 5 0
        [⟨"a", [⟨0, 0⟩, ⟨10, 0⟩], "c", 2⟩, ⟨"b", [⟨0, 1⟩, ⟨10, 1⟩], "c", 2⟩]
        2).length + 1 = 2 ∧
    (∀ s ∈ eraseWholeStroke 5 0
        [⟨"a", [⟨0, 0⟩, ⟨10, 0⟩], "c", 2⟩, ⟨"b", [⟨0, 1⟩, ⟨10, 1⟩], "c", 2⟩] 2,
      s.id ≠ "b") ∧
    (eraseWholeStroke 5 0
        [⟨"a", [⟨0, 0⟩, ⟨10, 0⟩], "c", 2⟩, ⟨"b", [⟨0, 1⟩, ⟨10, 1⟩], "c", 2⟩]
        2).Sublist
      [⟨"a", [⟨0, 0⟩, ⟨10, 0⟩], "c", 2⟩, ⟨"b", [⟨0, 1⟩, ⟨10, 1⟩], "c", 2⟩] ∧
    (∀ s ∈ [(⟨"a", [⟨0, 0⟩, ⟨10, 0⟩], "c", 2⟩ : StrokeLine),
        ⟨"b", [⟨0, 1⟩, ⟨10, 1⟩], "c", 2⟩],
      s.id ≠ "b" →
        s ∈ eraseWholeStroke 5 0
          [⟨"a", [⟨0, 0⟩, ⟨10, 0⟩], "c", 2⟩, ⟨"b", [⟨0, 1⟩, ⟨10, 1⟩], "c", 2⟩] 2) := by
  have hfind : findStrokeAtPosition 5 0
      [⟨"a", [⟨0, 0⟩, ⟨10, 0⟩], "c", 2⟩, ⟨"b", [⟨0, 1⟩, ⟨10, 1⟩], "c", 2⟩]
      (2 / 2) = some "b" := by
    show findFirstHit 5 0 (2 / 2)
      ([(⟨"a", [⟨0, 0⟩, ⟨10, 0⟩], "c", 2⟩ : StrokeLine),
        ⟨"b", [⟨0, 1⟩, ⟨10, 1⟩], "c", 2⟩]).reverse = some "b"
    rw [show ([(⟨"a", [⟨0, 0⟩, ⟨10, 0⟩], "c", 2⟩ : StrokeLine),
        ⟨"b", [⟨0, 1⟩, ⟨10, 1⟩], "c", 2⟩]).reverse =
      [(⟨"b", [⟨0, 1⟩, ⟨10, 1⟩], "c", 2⟩ : StrokeLine),
        ⟨"a", [⟨0, 0⟩, ⟨10, 0⟩], "c", 2⟩] by simp]
    unfold findFirstHit
    rw [if_pos (strokeHit_concrete_b (2 / 2) (by norm_num))]
  exact c8_whole_stroke_erase 5 0 2
    [⟨"a", [⟨0, 0⟩, ⟨10, 0⟩], "c", 2⟩, ⟨"b", [⟨0, 1⟩, ⟨10, 1⟩], "c", 2⟩]
    "b" (by simp) (by simp) hfind

/-- `√4000000 = 2000`, the discriminant square root arising in the concrete
split of C1. -/
theorem sqrt_four_million : Real.sqrt 4000000 = 2000 := by
  rw [show (4000000 : ℝ) = 2000 ^ 2 by norm_num]
  exact Real.sqrt_sq (by norm_num)

/-- Concrete evaluation: the segment (0,0)–(100,0) meets the circle of
center (50,0) and radius 10 at parameters 0.4 and 0.6, i.e. at (40,0) and
(60,0), in that push order. -/
theorem getSegmentCircleIntersections_c1 :
    getSegmentCircleIntersections ⟨0, 0⟩ ⟨100, 0⟩ ⟨50, 0⟩ 10 =
      [⟨40, 0⟩, ⟨60, 0⟩] := by
  unfold getSegmentCircleIntersections
  norm_num [segPoint, sqrt_four_million]

/-- **C1**: for the stroke with points (0,0), (100,0) and an eraser circle of
center (50,0) and radius 10, the circle splitter returns exactly 2
fragments: the first ends at (40,0), the second starts at (60,0), and each
has exactly 2 points (the original endpoint and the boundary intersection). -/
theorem c1_concrete_two_fragments (col : String) (w : ℝ) :
    eraseAtPosition 50 0 [⟨"s", [⟨0, 0⟩, ⟨100, 0⟩], col, w⟩] 10 =
      [⟨"s-0", [⟨0, 0⟩, ⟨40, 0⟩], col, w⟩,
       ⟨"s-1", [⟨60, 0⟩, ⟨100, 0⟩], col, w⟩] := by
  unfold eraseAtPosition
  simp only [List.flatMap_cons, List.flatMap_nil, List.append_nil]
  unfold splitStroke
  simp only [runSegments, eraseStep, initialRun, finishLine, sortByDistFrom,
    getSegmentCircleIntersections_c1]
  norm_num [isPointInCircle, distSq]
  simp [List.cons_ne_nil]
  exact ⟨rfl, rfl⟩

theorem segPoint_zero (p q : Pt) : segPoint p q 0 = p := by
  unfold segPoint
  cases p
  simp

theorem segPoint_one (p q : Pt) : segPoint p q 1 = q := by
  unfold segPoint
  cases q
  simp [Pt.mk.injEq]

theorem segPoint_distSq (p1 p2 c : Pt) (t : ℝ) :
    distSq (segPoint p1 p2 t) c =
      ((p2.x - p1.x) * (p2.x - p1.x) + (p2.y - p1.y) * (p2.y - p1.y)) * (t * t) +
      2 * ((p1.x - c.x) * (p2.x - p1.x) + (p1.y - c.y) * (p2.y - p1.y)) * t +
      ((p1.x - c.x) * (p1.x - c.x) + (p1.y - c.y) * (p1.y - c.y)) := by
  unfold distSq segPoint
  ring

/-- If the segment quadratic has no root in [0,1], the intersection list is
empty. -/
theorem inters_empty_of_no_root (p1 p2 c : Pt) (r : ℝ)
    (key : ∀ t : ℝ, 0 ≤ t → t ≤ 1 →
      ((p2.x - p1.x) * (p2.x - p1.x) + (p2.y - p1.y) * (p2.y - p1.y)) * (t * t) +
        2 * ((p1.x - c.x) * (p2.x - p1.x) + (p1.y - c.y) * (p2.y - p1.y)) * t +
        ((p1.x - c.x) * (p1.x - c.x) + (p1.y - c.y) * (p1.y - c.y) - r * r) ≠ 0) :
    getSegmentCircleIntersections p1 p2 c r = [] := by
  unfold getSegmentCircleIntersections
  dsimp only
  set A := (p2.x - p1.x) * (p2.x - p1.x) + (p2.y - p1.y) * (p2.y - p1.y) with hA
  set B := 2 * ((p1.x - c.x) * (p2.x - p1.x) + (p1.y - c.y) * (p2.y - p1.y)) with hB
  set C := (p1.x - c.x) * (p1.x - c.x) + (p1.y - c.y) * (p1.y - c.y) - r * r with hC
  by_cases hdisc : 0 ≤ B * B - 4 * A * C
  · rw [if_pos hdisc]
    by_cases ha : A = 0
    · rw [if_pos ha]
    · rw [if_neg ha]
      set s := Real.sqrt (B * B - 4 * A * C) with hs_def
      have hs : discrim A B C = s * s := by
        rw [hs_def, Real.mul_self_sqrt hdisc, discrim]
        ring
      have hroot1 : A * (((-B - s) / (2 * A)) * ((-B - s) / (2 * A))) +
          B * ((-B - s) / (2 * A)) + C = 0 :=
        (quadratic_eq_zero_iff ha hs ((-B - s) / (2 * A))).mpr (Or.inr rfl)
      have hroot2 : A * (((-B + s) / (2 * A)) * ((-B + s) / (2 * A))) +
          B * ((-B + s) / (2 * A)) + C = 0 :=
        (quadratic_eq_zero_iff ha hs ((-B + s) / (2 * A))).mpr (Or.inl rfl)
      have hc1 : ¬ (0 ≤ (-B - s) / (2 * A) ∧ (-B - s) / (2 * A) ≤ 1) :=
        fun hc => key ((-B - s) / (2 * A)) hc.1 hc.2 hroot1
      have hc2 : ¬ (0 ≤ (-B + s) / (2 * A) ∧ (-B + s) / (2 * A) ≤ 1) :=
        fun hc => key ((-B + s) / (2 * A)) hc.1 hc.2 hroot2
      rw [if_neg hc1, if_neg hc2]
      rfl
  · rw [if_neg hdisc]

/-- A segment lying entirely strictly outside the closed eraser disk meets
the circle nowhere. -/
theorem inters_empty_of_outside (p1 p2 c : Pt) (r : ℝ)
    (h : ∀ t : ℝ, 0 ≤ t → t ≤ 1 → r ^ 2 < distSq (segPoint p1 p2 t) c) :
    getSegmentCircleIntersections p1 p2 c r = [] := by
  apply inters_empty_of_no_root
  intro t h0 h1 heq
  have hd := h t h0 h1
  rw [segPoint_distSq] at hd
  nlinarith [heq, hd]

/-- A segment with both endpoints strictly inside the eraser circle meets
the circle nowhere. -/
theorem inters_empty_of_inside (p1 p2 c : Pt) (r : ℝ)
    (h1 : distSq p1 c < r ^ 2) (h2 : distSq p2 c < r ^ 2) :
    getSegmentCircleIntersections p1 p2 c r = [] := by
  apply inters_empty_of_no_root
  intro t h0 ht heq
  unfold distSq at h1 h2
  have hA : 0 ≤ (p2.x - p1.x) * (p2.x - p1.x) + (p2.y - p1.y) * (p2.y - p1.y) := by
    nlinarith [sq_nonneg (p2.x - p1.x), sq_nonneg (p2.y - p1.y)]
  rcases eq_or_lt_of_le h0 with h0e | h0s
  · rw [← h0e] at heq
    nlinarith [heq, h1]
  · rcases eq_or_lt_of_le ht with hte | hts
    · rw [hte] at heq
      nlinarith [heq, h2]
    · have e1 : 0 < (1 - t) * (r ^ 2 - ((p1.x - c.x) ^ 2 + (p1.y - c.y) ^ 2)) :=
        mul_pos (by linarith) (by linarith)
      have e2 : 0 < t * (r ^ 2 - ((p2.x - c.x) ^ 2 + (p2.y - c.y) ^ 2)) :=
        mul_pos h0s (by linarith)
      have e3 : 0 ≤ ((p2.x - p1.x) * (p2.x - p1.x) + (p2.y - p1.y) * (p2.y - p1.y)) *
          (t * (1 - t)) :=
        mul_nonneg hA (mul_nonneg (le_of_lt h0s) (by linarith))
      nlinarith [heq, e1, e2, e3]

theorem strokeSegments_cons₂ (p q : Pt) (l : List Pt) :
    strokeSegments (p :: q :: l) = (p, q) :: strokeSegments (q :: l) := rfl

/-- `eraseStep` on a segment that misses the circle, ending outside: the
endpoint is appended to the run. -/
theorem eraseStep_no_inter_out (x y r : ℝ) (stroke : StrokeLine) (st : EraseSt)
    (pprev pcur : Pt)
    (hi : getSegmentCircleIntersections pprev pcur ⟨x, y⟩ r = [])
    (hout : ¬ isPointInCircle pcur.x pcur.y x y r) :
    eraseStep x y r stroke st pprev pcur = { st with run := st.run ++ [pcur] } := by
  unfold eraseStep
  rw [hi, if_pos rfl, if_pos hout]

/-- `eraseStep` on a segment that misses the circle, ending inside: the run
is closed. -/
theorem eraseStep_no_inter_in (x y r : ℝ) (stroke : StrokeLine) (st : EraseSt)
    (pprev pcur : Pt)
    (hi : getSegmentCircleIntersections pprev pcur ⟨x, y⟩ r = [])
    (hin : isPointInCircle pcur.x pcur.y x y r) :
    eraseStep x y r stroke st pprev pcur = finishLine stroke st := by
  unfold eraseStep
  rw [hi, if_pos rfl, if_neg (not_not_intro hin)]

theorem finishLine_empty_run (stroke : StrokeLine) (k : ℕ) (out : List StrokeLine) :
    finishLine stroke ⟨[], k, out⟩ = ⟨[], k, out⟩ := by
  unfold finishLine
  rw [if_neg (by simp)]

/-- Segment loop over a polyline lying entirely strictly outside the closed
eraser disk: every point is appended to the run, nothing else changes. -/
theorem runSegments_all_outside (x y r : ℝ) (stroke : StrokeLine) (rest : List Pt) :
    ∀ (pprev : Pt) (st : EraseSt),
      (∀ seg ∈ strokeSegments (pprev :: rest), ∀ t : ℝ, 0 ≤ t → t ≤ 1 →
        r ^ 2 < distSq (segPoint seg.1 seg.2 t) ⟨x, y⟩) →
      runSegments x y r stroke pprev rest st = { st with run := st.run ++ rest } := by
  induction rest with
  | nil =>
      intro pprev st h
      simp [runSegments]
  | cons q qs ih =>
      intro pprev st h
      have hseg := h (pprev, q) (by rw [strokeSegments_cons₂]; exact List.mem_cons_self _ _)
      have hq : ¬ isPointInCircle q.x q.y x y r := by
        have h1 := hseg 1 zero_le_one le_rfl
        rw [segPoint_one] at h1
        unfold distSq at h1
        unfold isPointInCircle
        dsimp only at h1
        exact not_lt.mpr (le_of_lt h1)
      have hi := inters_empty_of_outside pprev q ⟨x, y⟩ r (fun t h0 h1 => hseg t h0 h1)
      unfold runSegments
      rw [eraseStep_no_inter_out x y r stroke st pprev q hi hq]
      rw [ih q { st with run := st.run ++ [q] }
        (fun seg hs => h seg (by rw [strokeSegments_cons₂]; exact List.mem_cons_of_mem _ hs))]
      simp

/-- Segment loop over a polyline lying entirely strictly inside the eraser
circle, with an empty run: the state never changes. -/
theorem runSegments_all_inside (x y r : ℝ) (stroke : StrokeLine) (rest : List Pt) :
    ∀ (pprev : Pt) (k : ℕ) (out : List StrokeLine),
      (∀ p ∈ pprev :: rest, distSq p ⟨x, y⟩ < r ^ 2) →
      runSegments x y r stroke pprev rest ⟨[], k, out⟩ = ⟨[], k, out⟩ := by
  induction rest with
  | nil =>
      intro pprev k out h
      rfl
  | cons q qs ih =>
      intro pprev k out h
      have hi := inters_empty_of_inside pprev q ⟨x, y⟩ r
        (h pprev (by simp)) (h q (by simp))
      have hq : isPointInCircle q.x q.y x y r := by
        have := h q (by simp)
        unfold distSq at this
        unfold isPointInCircle
        dsimp only at this
        exact this
      unfold runSegments
      rw [eraseStep_no_inter_in x y r stroke _ pprev q hi hq, finishLine_empty_run]
      exact ih q k out (fun p hp => h p (by simp at hp ⊢; tauto))

/-- A stroke lying entirely strictly outside the closed eraser disk is
re-emitted by the splitter as one fragment: same points, id suffixed `-0`
(strokes with fewer than 2 points pass through fully unchanged). -/
theorem splitStroke_all_outside (x y r : ℝ) (s : StrokeLine)
    (h : ∀ seg ∈ strokeSegments s.points, ∀ t : ℝ, 0 ≤ t → t ≤ 1 →
      r ^ 2 < distSq (segPoint seg.1 seg.2 t) ⟨x, y⟩) :
    splitStroke x y r s =
      [if 2 ≤ s.points.length then { s with id := s.id ++ "-0" } else s] := by
  obtain ⟨sid, ps, col, w⟩ := s
  cases ps with
  | nil => simp [splitStroke]
  | cons p0 ps1 =>
    cases ps1 with
    | nil => simp [splitStroke]
    | cons p1 rest =>
      have hp0 : ¬ isPointInCircle p0.x p0.y x y r := by
        have h0 := h (p0, p1) (by exact List.mem_cons_self _ _) 0 le_rfl zero_le_one
        rw [segPoint_zero] at h0
        unfold distSq at h0
        unfold isPointInCircle
        dsimp only at h0
        exact not_lt.mpr (le_of_lt h0)
      show (finishLine _ (runSegments x y r _ p0 (p1 :: rest)
        { run := initialRun p0 x y r, segCount := 0, out := [] })).out = _
      rw [initialRun, if_pos hp0]
      rw [runSegments_all_outside x y r _ (p1 :: rest) p0 _ h]
      unfold finishLine
      rw [if_pos (by simp)]
      rw [if_pos (by simp)]
      have hid : sid ++ "-" ++ toString (0 : ℕ) = sid ++ "-0" := by
        apply String.ext
        simp only [String.data_append]
        rw [List.append_assoc]
        rfl
      rw [hid]
      rfl

/-- **C2 (amended)**: erasing with a circle strictly disjoint from every
stroke returns the collection with the same point sequences in the same
order; each stroke with at least 2 points is re-emitted as one fragment
whose id is the original id suffixed `-0`, and shorter strokes pass through
fully unchanged. -/
theorem c2_outside_structural (x y r : ℝ) (L : List StrokeLine)
    (h : ∀ s ∈ L, ∀ seg ∈ strokeSegments s.points, ∀ t : ℝ, 0 ≤ t → t ≤ 1 →
      r ^ 2 < distSq (segPoint seg.1 seg.2 t) ⟨x, y⟩) :
    eraseAtPosition x y L r =
      L.map (fun s => if 2 ≤ s.points.length
        then { s with id := s.id ++ "-0" } else s) := by
  unfold eraseAtPosition
  induction L with
  | nil => rfl
  | cons s rest ih =>
      simp only [List.flatMap_cons, List.map_cons]
      rw [splitStroke_all_outside x y r s (h s (List.mem_cons_self _ _)),
        ih (fun s2 hs2 => h s2 (List.mem_cons_of_mem _ hs2))]
      rfl

/-- The segment of the concrete two-point stroke used in the C2
counterexample and witness lies strictly outside the unit circle at
(100, 100). -/
theorem outside_far_segments :
    ∀ seg ∈ strokeSegments [(⟨0, 0⟩ : Pt), ⟨1, 0⟩], ∀ t : ℝ, 0 ≤ t → t ≤ 1 →
      (1 : ℝ) ^ 2 < distSq (segPoint seg.1 seg.2 t) ⟨100, 100⟩ := by
  intro seg hs t h0 h1
  have hseg : seg = ((⟨0, 0⟩ : Pt), (⟨1, 0⟩ : Pt)) := by
    simpa [strokeSegments] using hs
  subst hseg
  unfold distSq segPoint
  dsimp only
  nlinarith [sq_nonneg (0 + t * (1 - 0) - 100)]

/-- **C2 (counterexample to the claim as stated)**: a two-point stroke
entirely strictly outside the eraser circle is *not* returned structurally
unchanged — its identifier changes from "s" to "s-0". -/
theorem c2_id_changed_counterexample :
    (∀ s ∈ [(⟨"s", [⟨0, 0⟩, ⟨1, 0⟩], "c", 1⟩ : StrokeLine)],
      ∀ seg ∈ strokeSegments s.points, ∀ t : ℝ, 0 ≤ t → t ≤ 1 →
        (1 : ℝ) ^ 2 < distSq (segPoint seg.1 seg.2 t) ⟨100, 100⟩) ∧
    eraseAtPosition 100 100 [⟨"s", [⟨0, 0⟩, ⟨1, 0⟩], "c", 1⟩] 1 ≠
      [⟨"s", [⟨0, 0⟩, ⟨1, 0⟩], "c", 1⟩] := by
  refine ⟨?_, ?_⟩
  · intro s hs
    have hss : s = (⟨"s", [⟨0, 0⟩, ⟨1, 0⟩], "c", 1⟩ : StrokeLine) := by simpa using hs
    subst hss
    exact outside_far_segments
  · have hsplit := splitStroke_all_outside 100 100 1
      ⟨"s", [⟨0, 0⟩, ⟨1, 0⟩], "c", 1⟩ outside_far_segments
    unfold eraseAtPosition
    simp only [List.flatMap_cons, List.flatMap_nil, List.append_nil]
    rw [hsplit, if_pos (by simp)]
    intro heq
    injection heq with h1 h2
    injection h1 with hid hrest
    exact absurd hid (by decide)

/-- Witness for C2 at a concrete input: the far-away stroke keeps its points
but its id becomes "s-0". -/
theorem c2_outside_structural_witness :
    eraseAtPosition 100 100 [⟨"s", [⟨0, 0⟩, ⟨1, 0⟩], "c", 1⟩] 1 =
      [⟨"s-0", [⟨0, 0⟩, ⟨1, 0⟩], "c", 1⟩] := by
  have h := c2_outside_structural 100 100 1 [⟨"s", [⟨0, 0⟩, ⟨1, 0⟩], "c", 1⟩]
    (by
      intro s hs
      have hss : s = (⟨"s", [⟨0, 0⟩, ⟨1, 0⟩], "c", 1⟩ : StrokeLine) := by simpa using hs
      subst hss
      exact outside_far_segments)
  rw [h]
  simp only [List.map_cons, List.map_nil]
  rw [if_pos (by simp)]
  rfl

/-- **C4 (amended)**: a stroke with at least 2 points, all strictly inside
the eraser circle, is erased outright: the splitter returns zero fragments. -/
theorem c4_inside_zero_fragments (x y r : ℝ) (s : StrokeLine)
    (hlen : 2 ≤ s.points.length)
    (hin : ∀ p ∈ s.points, distSq p ⟨x, y⟩ < r ^ 2) :
    splitStroke x y r s = [] := by
  obtain ⟨sid, ps, col, w⟩ := s
  cases ps with
  | nil => simp at hlen
  | cons p0 ps1 =>
    cases ps1 with
    | nil => simp at hlen
    | cons p1 rest =>
      have hp0 : isPointInCircle p0.x p0.y x y r := by
        have h0 := hin p0 (by simp)
        unfold distSq at h0
        unfold isPointInCircle
        dsimp only at h0
        exact h0
      show (finishLine _ (runSegments x y r _ p0 (p1 :: rest)
        { run := initialRun p0 x y r, segCount := 0, out := [] })).out = _
      rw [initialRun, if_neg (not_not_intro hp0)]
      rw [runSegments_all_inside x y r _ (p1 :: rest) p0 0 []
        (fun p hp => hin p hp)]
      rw [finishLine_empty_run]

/-- **C4 (counterexample to the claim as stated)**: a single-point stroke
whose point lies strictly inside the eraser circle is *not* erased — the
degenerate guard passes it through, so the splitter does not return zero
fragments. -/
theorem c4_single_point_counterexample :
    (∀ p ∈ [(⟨0, 0⟩ : Pt)], distSq p ⟨0, 0⟩ < (10 : ℝ) ^ 2) ∧
    eraseAtPosition 0 0 [⟨"s", [⟨0, 0⟩], "c", 1⟩] 10 ≠ [] := by
  constructor
  · intro p hp
    have hpp : p = (⟨0, 0⟩ : Pt) := by simpa using hp
    subst hpp
    norm_num [distSq]
  · intro h
    have heval : eraseAtPosition 0 0 [⟨"s", [⟨0, 0⟩], "c", 1⟩] 10 =
        [⟨"s", [⟨0, 0⟩], "c", 1⟩] := rfl
    rw [heval] at h
    exact List.noConfusion h

/-- Witness for C4 at a concrete input: both points of the stroke lie
strictly inside the circle of radius 10, and the splitter erases it. -/
theorem c4_inside_zero_fragments_witness :
    splitStroke 0 0 10 ⟨"s", [⟨0, 0⟩, ⟨1, 0⟩], "c", 1⟩ = [] :=
  c4_inside_zero_fragments 0 0 10 ⟨"s", [⟨0, 0⟩, ⟨1, 0⟩], "c", 1⟩ (by simp)
    (by
      intro p hp
      simp at hp
      rcases hp with rfl | rfl <;> norm_num [distSq])

theorem forall₂_concat {α β : Type} {R : α → β → Prop} {l1 : List α}
    {l2 : List β} {a : α} {b : β} (h : List.Forall₂ R l1 l2) (hab : R a b) :
    List.Forall₂ R (l1 ++ [a]) (l2 ++ [b]) := by
  induction h with
  | nil => exact List.Forall₂.cons hab List.Forall₂.nil
  | cons hR hF ih => exact List.Forall₂.cons hR ih

theorem IsPathSeqLe_nil (P : List Pt) (b : ℝ) : IsPathSeqLe P [] b :=
  ⟨[], List.Pairwise.nil, by simp, List.Forall₂.nil⟩

theorem IsPathSeqLe_mono (P : List Pt) (f : List Pt) (b b2 : ℝ)
    (hb : b ≤ b2) (h : IsPathSeqLe P f b) : IsPathSeqLe P f b2 := by
  obtain ⟨us, hp, hub, hf⟩ := h
  exact ⟨us, hp, fun u hu => le_trans (hub u hu) hb, hf⟩

theorem IsPathSeqLe_isPathSeq (P : List Pt) (f : List Pt) (b : ℝ)
    (h : IsPathSeqLe P f b) : IsPathSeq P f := by
  obtain ⟨us, hp, -, hf⟩ := h
  exact ⟨us, hp, hf⟩

theorem IsPathSeqLe_concat (P : List Pt) (f : List Pt) (b u : ℝ) (q : Pt)
    (h : IsPathSeqLe P f b) (hbu : b ≤ u) (hq : OnPath P u q) :
    IsPathSeqLe P (f ++ [q]) u := by
  obtain ⟨us, hp, hub, hf⟩ := h
  refine ⟨us ++ [u], ?_, ?_, forall₂_concat hf hq⟩
  · rw [List.pairwise_append]
    refine ⟨hp, List.pairwise_singleton _ _, ?_⟩
    intro a ha v hv
    have hvu : v = u := by simpa using hv
    subst hvu
    exact le_trans (hub a ha) hbu
  · intro v hv
    rcases List.mem_append.mp hv with h1 | h2
    · exact le_trans (hub v h1) hbu
    · have hvu : v = u := by simpa using h2
      subst hvu
      exact le_rfl

theorem IsPathSeqLe_single (P : List Pt) (u b : ℝ) (q : Pt)
    (hq : OnPath P u q) (hub : u ≤ b) : IsPathSeqLe P [q] b :=
  IsPathSeqLe_mono P [q] u b hub
    (IsPathSeqLe_concat P [] u u q (IsPathSeqLe_nil P u) le_rfl hq)

theorem OnPath_segPoint (P pre suf : List Pt) (a b : Pt) (t : ℝ)
    (hP : P = pre ++ a :: b :: suf) (h0 : 0 ≤ t) (h1 : t ≤ 1) :
    OnPath P ((pre.length : ℝ) + t) (segPoint a b t) :=
  ⟨pre, a, b, suf, t, hP, h0, h1, rfl, rfl⟩

/-- `finishLine` preserves the splitter invariant and clears the run. -/
theorem finishLine_inv (s : StrokeLine) (P : List Pt) (st : EraseSt)
    (hinv : SplitInv s P st) (hrun : IsPathSeq P st.run) :
    SplitInv s P (finishLine s st) ∧ (finishLine s st).run = [] := by
  obtain ⟨hcount, hids, hfr⟩ := hinv
  unfold finishLine
  by_cases h : 2 ≤ st.run.length
  · rw [if_pos h]
    refine ⟨⟨?_, ?_, ?_⟩, rfl⟩
    · simp [hcount]
    · simp only [List.map_append, List.map_cons, List.map_nil, List.length_append,
        List.length_cons, List.length_nil]
      rw [hids, hcount, show st.out.length + (0 + 1) = st.out.length + 1 by omega,
        List.range_succ]
      simp
    · intro f hf
      rcases List.mem_append.mp hf with h1 | h2
      · exact hfr f h1
      · have hfe : f = StrokeLine.mk (s.id ++ "-" ++ toString st.segCount)
            st.run s.color s.strokeWidth := by simpa using h2
        subst hfe
        exact ⟨h, rfl, rfl, hrun⟩
  · rw [if_neg h]
    exact ⟨⟨hcount, hids, hfr⟩, rfl⟩

theorem distSq_segPoint_start (p1 p2 : Pt) (t : ℝ) :
    distSq p1 (segPoint p1 p2 t) =
      ((p2.x - p1.x) * (p2.x - p1.x) + (p2.y - p1.y) * (p2.y - p1.y)) * (t * t) := by
  unfold distSq segPoint
  ring

/-- The sorted intersection list of a segment is the image of an ascending
list of parameters in `[0, 1]`. -/
theorem inters_sorted_params (p1 p2 c : Pt) (r : ℝ) :
    ∃ ts : List ℝ, ts.Pairwise (· ≤ ·) ∧ (∀ t ∈ ts, 0 ≤ t ∧ t ≤ 1) ∧
      sortByDistFrom p1 (getSegmentCircleIntersections p1 p2 c r) =
        ts.map (segPoint p1 p2) := by
  unfold getSegmentCircleIntersections
  dsimp only
  set A := (p2.x - p1.x) * (p2.x - p1.x) + (p2.y - p1.y) * (p2.y - p1.y) with hA
  set B := 2 * ((p1.x - c.x) * (p2.x - p1.x) + (p1.y - c.y) * (p2.y - p1.y)) with hB
  set C := (p1.x - c.x) * (p1.x - c.x) + (p1.y - c.y) * (p1.y - c.y) - r * r with hC
  by_cases hdisc : 0 ≤ B * B - 4 * A * C
  · rw [if_pos hdisc]
    by_cases ha : A = 0
    · rw [if_pos ha]
      exact ⟨[], List.Pairwise.nil, by simp, rfl⟩
    · rw [if_neg ha]
      have hA0 : 0 ≤ A := by
        rw [hA]
        nlinarith [sq_nonneg (p2.x - p1.x), sq_nonneg (p2.y - p1.y)]
      have hApos : 0 < A := lt_of_le_of_ne hA0 (Ne.symm ha)
      set s1 := Real.sqrt (B * B - 4 * A * C) with hs1_def
      have hs1 : 0 ≤ s1 := Real.sqrt_nonneg _
      have ht12 : (-B - s1) / (2 * A) ≤ (-B + s1) / (2 * A) :=
        (div_le_div_iff_of_pos_right (by positivity)).mpr (by linarith)
      by_cases h1 : 0 ≤ (-B - s1) / (2 * A) ∧ (-B - s1) / (2 * A) ≤ 1
      · rw [if_pos h1]
        by_cases h2 : 0 ≤ (-B + s1) / (2 * A) ∧ (-B + s1) / (2 * A) ≤ 1
        · rw [if_pos h2]
          refine ⟨[(-B - s1) / (2 * A), (-B + s1) / (2 * A)], ?_, ?_, ?_⟩
          · simp [List.pairwise_cons, ht12]
          · intro t ht
            simp only [List.mem_cons, List.mem_singleton, List.not_mem_nil,
              or_false] at ht
            rcases ht with rfl | rfl
            · exact h1
            · exact h2
          · show sortByDistFrom p1 [segPoint p1 p2 ((-B - s1) / (2 * A)),
              segPoint p1 p2 ((-B + s1) / (2 * A))] = _
            unfold sortByDistFrom
            dsimp only
            have hkey : (-B - s1) / (2 * A) * ((-B - s1) / (2 * A)) ≤
                (-B + s1) / (2 * A) * ((-B + s1) / (2 * A)) :=
              mul_self_le_mul_self h1.1 ht12
            rw [if_neg (not_lt.mpr ?_)]
            · rfl
            · rw [distSq_segPoint_start, distSq_segPoint_start]
              exact mul_le_mul_of_nonneg_left hkey hA0
        · rw [if_neg h2]
          refine ⟨[(-B - s1) / (2 * A)], List.pairwise_singleton _ _, ?_, rfl⟩
          intro t ht
          simp only [List.mem_singleton] at ht
          subst ht
          exact h1
      · rw [if_neg h1]
        by_cases h2 : 0 ≤ (-B + s1) / (2 * A) ∧ (-B + s1) / (2 * A) ≤ 1
        · rw [if_pos h2]
          refine ⟨[(-B + s1) / (2 * A)], List.pairwise_singleton _ _, ?_, rfl⟩
          intro t ht
          simp only [List.mem_singleton] at ht
          subst ht
          exact h2
        · rw [if_neg h2]
          exact ⟨[], List.Pairwise.nil, by simp, rfl⟩
  · rw [if_neg hdisc]
    exact ⟨[], List.Pairwise.nil, by simp, rfl⟩

/-- Folding the cut-or-start action over an ascending list of intersection
parameters preserves the splitter invariant, leaving the run bounded by the
end of the current segment. -/
theorem foldl_cut_inv (s : StrokeLine) (consumed suf : List Pt)
    (a b : Pt) (P : List Pt) (hP : P = consumed ++ a :: b :: suf)
    (ts : List ℝ) :
    ∀ (st : EraseSt) (t0 : ℝ),
      ts.Pairwise (· ≤ ·) → (∀ t ∈ ts, 0 ≤ t ∧ t ≤ 1) → (∀ t ∈ ts, t0 ≤ t) →
      t0 ≤ 1 →
      SplitInv s P st →
      IsPathSeqLe P st.run ((consumed.length : ℝ) + t0) →
      SplitInv s P ((ts.map (segPoint a b)).foldl
        (fun s2 q => if s2.run ≠ [] then finishLine s { s2 with run := s2.run ++ [q] }
          else { s2 with run := [q] }) st) ∧
      IsPathSeqLe P ((ts.map (segPoint a b)).foldl
        (fun s2 q => if s2.run ≠ [] then finishLine s { s2 with run := s2.run ++ [q] }
          else { s2 with run := [q] }) st).run ((consumed.length : ℝ) + 1) := by
  induction ts with
  | nil =>
      intro st t0 hpw hbounds hlow ht01 hinv hrun
      exact ⟨hinv, IsPathSeqLe_mono _ _ _ _ (by linarith) hrun⟩
  | cons t ts2 ih =>
      intro st t0 hpw hbounds hlow ht01 hinv hrun
      simp only [List.map_cons, List.foldl_cons]
      have hOn : OnPath P ((consumed.length : ℝ) + t) (segPoint a b t) :=
        OnPath_segPoint P consumed suf a b t hP (hbounds t (by simp)).1
          (hbounds t (by simp)).2
      by_cases hr : st.run = []
      · rw [if_neg (not_not_intro hr)]
        apply ih
        · exact (List.pairwise_cons.mp hpw).2
        · intro t2 ht2
          exact hbounds t2 (by simp [ht2])
        · intro t2 ht2
          exact (List.pairwise_cons.mp hpw).1 t2 ht2
        · exact (hbounds t (by simp)).2
        · exact hinv
        · exact IsPathSeqLe_single P _ _ (segPoint a b t) hOn le_rfl
      · rw [if_pos hr]
        have hrun2 : IsPathSeqLe P (st.run ++ [segPoint a b t])
            ((consumed.length : ℝ) + t) :=
          IsPathSeqLe_concat P st.run _ _ (segPoint a b t) hrun
            (by
              have := hlow t (by simp)
              linarith) hOn
        have hfin := finishLine_inv s P { st with run := st.run ++ [segPoint a b t] }
          hinv (IsPathSeqLe_isPathSeq P _ _ hrun2)
        apply ih
        · exact (List.pairwise_cons.mp hpw).2
        · intro t2 ht2
          exact hbounds t2 (by simp [ht2])
        · intro t2 ht2
          exact (List.pairwise_cons.mp hpw).1 t2 ht2
        · exact (hbounds t (by simp)).2
        · exact hfin.1
        · rw [hfin.2]
          exact IsPathSeqLe_nil P _

/-- One segment step of the splitter preserves the invariant and leaves the
run bounded by the end of the segment. -/
theorem eraseStep_inv (x y r : ℝ) (s : StrokeLine) (consumed suf : List Pt)
    (pprev q : Pt) (st : EraseSt) (P : List Pt)
    (hP : P = consumed ++ pprev :: q :: suf)
    (hinv : SplitInv s P st)
    (hrun : IsPathSeqLe P st.run (consumed.length : ℝ)) :
    SplitInv s P (eraseStep x y r s st pprev q) ∧
    IsPathSeqLe P (eraseStep x y r s st pprev q).run ((consumed.length : ℝ) + 1) := by
  have hOn1 : OnPath P ((consumed.length : ℝ) + 1) q := by
    have h := OnPath_segPoint P consumed suf pprev q 1 hP zero_le_one le_rfl
    rwa [segPoint_one] at h
  unfold eraseStep
  by_cases hi : getSegmentCircleIntersections pprev q ⟨x, y⟩ r = []
  · rw [if_pos hi]
    by_cases hout : isPointInCircle q.x q.y x y r
    · rw [if_neg (not_not_intro hout)]
      have hfin := finishLine_inv s P st hinv (IsPathSeqLe_isPathSeq P _ _ hrun)
      refine ⟨hfin.1, ?_⟩
      rw [hfin.2]
      exact IsPathSeqLe_nil P _
    · rw [if_pos hout]
      exact ⟨hinv, IsPathSeqLe_concat P st.run _ _ q hrun (by linarith) hOn1⟩
  · rw [if_neg hi]
    dsimp only
    obtain ⟨ts, hpw, hbounds, heq⟩ := inters_sorted_params pprev q ⟨x, y⟩ r
    rw [heq]
    have hfold := foldl_cut_inv s consumed suf pprev q P hP ts st 0 hpw hbounds
      (fun t ht => (hbounds t ht).1) zero_le_one hinv
      (by rw [add_zero]; exact hrun)
    by_cases hout : isPointInCircle q.x q.y x y r
    · rw [if_neg (not_not_intro hout)]
      exact hfold
    · rw [if_pos hout]
      exact ⟨hfold.1,
        IsPathSeqLe_concat P _ _ _ q hfold.2 le_rfl hOn1⟩

/-- The whole segment loop preserves the invariant. -/
theorem runSegments_inv (x y r : ℝ) (s : StrokeLine) (rest : List Pt) :
    ∀ (consumed : List Pt) (pprev : Pt) (st : EraseSt) (P : List Pt),
      P = consumed ++ pprev :: rest →
      SplitInv s P st →
      IsPathSeqLe P st.run (consumed.length : ℝ) →
      SplitInv s P (runSegments x y r s pprev rest st) ∧
      IsPathSeqLe P (runSegments x y r s pprev rest st).run
        ((consumed.length : ℝ) + rest.length) := by
  induction rest with
  | nil =>
      intro consumed pprev st P hP hinv hrun
      refine ⟨hinv, ?_⟩
      show IsPathSeqLe P st.run _
      simpa using hrun
  | cons q qs ih =>
      intro consumed pprev st P hP hinv hrun
      unfold runSegments
      have hstep := eraseStep_inv x y r s consumed qs pprev q st P hP hinv hrun
      have hih := ih (consumed ++ [pprev]) q (eraseStep x y r s st pprev q) P
        (by rw [hP]; simp) hstep.1
        (by
          have h2 := hstep.2
          have hcast : ((consumed ++ [pprev]).length : ℝ) =
              (consumed.length : ℝ) + 1 := by
            simp
          rw [hcast]
          exact h2)
      refine ⟨hih.1, ?_⟩
      have h3 := hih.2
      have hcast2 : ((consumed ++ [pprev]).length : ℝ) + (qs.length : ℝ) =
          (consumed.length : ℝ) + ((q :: qs).length : ℝ) := by
        simp
        ring
      rwa [hcast2] at h3

/-- **C5**: every fragment emitted by the splitter from a stroke with ≥ 2
points has at least 2 points, the original's color and stroke width, its
points in the original polyline's traversal order (`IsPathSeq`), and an
identifier `originalId-k` where `k` is the fragment's ordinal in the output
— unique within the call. -/
theorem c5_fragment_invariants (x y r : ℝ) (s : StrokeLine)
    (hlen : 2 ≤ s.points.length) :
    (∀ f ∈ splitStroke x y r s,
      2 ≤ f.points.length ∧ f.color = s.color ∧ f.strokeWidth = s.strokeWidth ∧
      IsPathSeq s.points f.points) ∧
    (splitStroke x y r s).map StrokeLine.id =
      (List.range (splitStroke x y r s).length).map
        (fun k => s.id ++ "-" ++ toString k) := by
  obtain ⟨sid, ps, col, w⟩ := s
  cases ps with
  | nil => simp at hlen
  | cons p0 ps1 =>
    cases ps1 with
    | nil => simp at hlen
    | cons p1 rest =>
      set S := StrokeLine.mk sid (p0 :: p1 :: rest) col w with hS
      have hOn0 : OnPath (p0 :: p1 :: rest) 0 p0 := by
        have h := OnPath_segPoint (p0 :: p1 :: rest) [] rest p0 p1 0 rfl le_rfl
          zero_le_one
        rw [segPoint_zero] at h
        simpa using h
      have hinit : IsPathSeqLe (p0 :: p1 :: rest) (initialRun p0 x y r) 0 := by
        unfold initialRun
        split_ifs
        · exact IsPathSeqLe_nil _ 0
        · exact IsPathSeqLe_single _ 0 0 p0 hOn0 le_rfl
      have hinv0 : SplitInv S (p0 :: p1 :: rest)
          ⟨initialRun p0 x y r, 0, []⟩ := by
        refine ⟨rfl, by simp, by simp⟩
      have hloop := runSegments_inv x y r S (p1 :: rest) [] p0
        ⟨initialRun p0 x y r, 0, []⟩ (p0 :: p1 :: rest) rfl hinv0
        (by simpa using hinit)
      have hfin := finishLine_inv S (p0 :: p1 :: rest) _ hloop.1
        (IsPathSeqLe_isPathSeq _ _ _ hloop.2)
      obtain ⟨hc, hids, hfr⟩ := hfin.1
      exact ⟨fun f hf => hfr f hf, hids⟩

/-- Witness for C5 on the concrete stroke of C1: both emitted fragments
satisfy all the fragment invariants. -/
theorem c5_fragment_invariants_witness :
    (∀ f ∈ splitStroke 50 0 10 ⟨"s", [⟨0, 0⟩, ⟨100, 0⟩], "c", 1⟩,
      2 ≤ f.points.length ∧ f.color = "c" ∧ f.strokeWidth = 1 ∧
      IsPathSeq [⟨0, 0⟩, ⟨100, 0⟩] f.points) ∧
    (splitStroke 50 0 10 ⟨"s", [⟨0, 0⟩, ⟨100, 0⟩], "c", 1⟩).map StrokeLine.id =
      (List.range
        (splitStroke 50 0 10 ⟨"s", [⟨0, 0⟩, ⟨100, 0⟩], "c", 1⟩).length).map
        (fun k => "s" ++ "-" ++ toString k) :=
  c5_fragment_invariants 50 0 10 ⟨"s", [⟨0, 0⟩, ⟨100, 0⟩], "c", 1⟩ (by simp)

end NovaSketch










